import Mathlib

/-
Verification of the html-balancer-stream core (src/index.ts): the incremental
tag-balancing engine, its node buffer and serializer, and the one-shot string
API.  The engine is embedded as explicit state passing over `EngineState`;
the three tokenizer callbacks (`onopentag`, `ontext`, `onclosetag`) become
state-transition functions, and a run over a list of structural events is a
fold.  The external SAX tokenizer (htmlparser2) is out of scope for the core;
where its behaviour is needed it is modelled from the specification.
-/

namespace HtmlBalancer

/-- Structural event node kept in the pending buffer, embedding the
`HtmlNode` union type of src/index.ts. -/
inductive HtmlNode where
  | open_ (name : String) (attributes : List (String × String))
  | close (name : String)
  | text (text : String)
deriving DecidableEq

/-- The fixed void/self-closing tag list `selfClosingTags` of src/index.ts. -/
def selfClosingTags : List String :=
  ["area", "base", "br", "col", "embed", "hr", "img", "input", "link",
   "meta", "param", "source", "track", "wbr"]

/-- `isSelfClosingTag` of src/index.ts: membership in the fixed list. -/
def isSelfClosingTag (tag : String) : Bool :=
  selfClosingTags.contains tag

/-- Lowercase hexadecimal digit, as produced by JavaScript number formatting. -/
def hexDigit (n : Nat) : Char :=
  if n < 10 then Char.ofNat (48 + n) else Char.ofNat (87 + n)

/-- Four lowercase hex digits, for the \uXXXX escapes of JSON.stringify. -/
def hex4 (n : Nat) : String :=
  String.mk [hexDigit ((n / 4096) % 16), hexDigit ((n / 256) % 16),
             hexDigit ((n / 16) % 16), hexDigit (n % 16)]

/-- Per-character escaping of ECMA-262 QuoteJSONString, used by the
`JSON.stringify(value)` call in `htmlNodesToString` of src/index.ts. -/
def jsonEscapeChar (c : Char) : String :=
  if c = '"' then "\\\""
  else if c = '\\' then "\\\\"
  else if c = '\x08' then "\\b"
  else if c = '\t' then "\\t"
  else if c = '\n' then "\\n"
  else if c = '\x0c' then "\\f"
  else if c = '\r' then "\\r"
  else if c.toNat < 32 then "\\u" ++ hex4 c.toNat
  else String.mk [c]

/-- `JSON.stringify` applied to a string value: the escaped characters inside
double quotes. -/
def jsonStringify (s : String) : String :=
  "\"" ++ String.join (s.data.map jsonEscapeChar) ++ "\""

/-- JavaScript `Array.prototype.join(sep)`: elements interleaved with the
separator. -/
def joinSep (sep : String) : List String → String
  | [] => ""
  | [a] => a
  | a :: rest => a ++ sep ++ joinSep sep rest

/-- Rendering of one `HtmlNode`, the switch body inside `htmlNodesToString`
of src/index.ts. -/
def renderNode : HtmlNode → String
  | HtmlNode.open_ name attributes =>
      let attributeStrings := attributes.map fun kv => kv.1 ++ "=" ++ jsonStringify kv.2
      let closeTag := if isSelfClosingTag name then "/" else ""
      "<" ++ joinSep " " (name :: attributeStrings) ++ closeTag ++ ">"
  | HtmlNode.close name => "</" ++ name ++ ">"
  | HtmlNode.text t => t

/-- `htmlNodesToString` of src/index.ts: map each node to its rendering and
join with the empty separator (concatenation). -/
def htmlNodesToString (nodes : List HtmlNode) : String :=
  String.join (nodes.map renderNode)

/-- The mutable state captured by the `makeParser` closure of src/index.ts:
the `unclosed` depth counter, the pending `buffer`, and the chunks passed to
`enqueue` so far (in order). -/
structure EngineState where
  unclosed : Int
  buffer : List HtmlNode
  outputs : List String
deriving DecidableEq

/-- Initial closure state of `makeParser`: depth 0, empty buffer, nothing
enqueued. -/
def initState : EngineState :=
  { unclosed := 0, buffer := [], outputs := [] }

/-- The `flush` closure of src/index.ts: if the buffer is non-empty, enqueue
its rendering as one chunk and empty it; otherwise do nothing. -/
def flush (st : EngineState) : EngineState :=
  if st.buffer.length > 0 then
    { st with outputs := st.outputs ++ [htmlNodesToString st.buffer], buffer := [] }
  else st

/-- The `onopentag` callback of src/index.ts: increment `unclosed`, append the
open node, flush only when buffering is disabled. -/
def onopentag (optsBuffer : Bool) (name : String) (attributes : List (String × String))
    (st : EngineState) : EngineState :=
  let st1 := { st with unclosed := st.unclosed + 1,
                       buffer := st.buffer ++ [HtmlNode.open_ name attributes] }
  if !optsBuffer then flush st1 else st1

/-- The `ontext` callback of src/index.ts: sanitize raw angle brackets, append
the text node, flush when buffering is disabled or all tags are closed. -/
def ontext (optsBuffer : Bool) (t : String) (st : EngineState) : EngineState :=
  let sanitizedText := (t.replace "<" "&lt;").replace ">" "&gt;"
  let st1 := { st with buffer := st.buffer ++ [HtmlNode.text sanitizedText] }
  if !optsBuffer || st1.unclosed == 0 then flush st1 else st1

/-- The `onclosetag` callback of src/index.ts: decrement `unclosed`, append a
close node only for non-void tags, flush when buffering is disabled or all
tags are closed. -/
def onclosetag (optsBuffer : Bool) (name : String) (st : EngineState) : EngineState :=
  let st1 := { st with unclosed := st.unclosed - 1 }
  let st2 := if !isSelfClosingTag name then
               { st1 with buffer := st1.buffer ++ [HtmlNode.close name] }
             else st1
  if !optsBuffer || st2.unclosed == 0 then flush st2 else st2

/-- A structural event as delivered by the tokenizer callbacks. -/
inductive Ev where
  | open_ (name : String) (attributes : List (String × String))
  | close (name : String)
  | text (t : String)
deriving DecidableEq

/-- Dispatch one tokenizer callback on the engine state. -/
def step (optsBuffer : Bool) (st : EngineState) : Ev → EngineState
  | Ev.open_ n a => onopentag optsBuffer n a st
  | Ev.close n => onclosetag optsBuffer n st
  | Ev.text t => ontext optsBuffer t st

/-- Run the engine over a list of structural events. -/
def processEvents (optsBuffer : Bool) (evs : List Ev) (st : EngineState) : EngineState :=
  evs.foldl (step optsBuffer) st

/-- Modelled from the spec: the end-of-input close synthesis is performed by
the external tokenizer (htmlparser2), which is not part of src/; per the
specification it invokes the close-tag callback once for each still-open tag,
last-opened first (`stk` is that stack, most recently opened tag at the
head). -/
def endInput (optsBuffer : Bool) (stk : List String) (st : EngineState) : EngineState :=
  stk.foldl (fun s n => onclosetag optsBuffer n s) st

/-- All text the engine has committed so far: the enqueued chunks followed by
the rendering of the not-yet-flushed buffer. -/
def totalOut (st : EngineState) : String :=
  String.join st.outputs ++ htmlNodesToString st.buffer

/-- Tokenizer-side state: an optional void tag whose synthesized close-tag
callback is still due, and the stack of open tags (head = most recent). -/
abbrev TokState := Option String × List String

/-- Modelled from the spec: one step of the tokenizer event contract.  A void
open is immediately followed by its synthesized close; a non-void close always
matches the most recently opened tag (the tokenizer inserts implied closes to
keep stack discipline).  `none` marks a stream the contract rules out. -/
def wfStep : TokState → Ev → Option TokState
  | (some v, st), Ev.close n => if n = v then some (none, st) else none
  | (some _, _), _ => none
  | (none, st), Ev.open_ n _ =>
      if isSelfClosingTag n then some (some n, st) else some (none, n :: st)
  | (none, st), Ev.close n =>
      if isSelfClosingTag n then none
      else match st with
           | m :: st2 => if m = n then some (none, st2) else none
           | [] => none
  | (none, st), Ev.text _ => some (none, st)

/-- Run of the tokenizer contract over an event list. -/
def wfRun : List Ev → TokState → Option TokState
  | [], ts => some ts
  | e :: evs, ts =>
      match wfStep ts e with
      | some ts2 => wfRun evs ts2
      | none => none

/-- Number of opens the tokenizer state still owes a close for. -/
def tsCount (ts : TokState) : Nat :=
  ts.2.length + (if ts.1.isSome then 1 else 0)

/-- The nodes the engine appends to the buffer for one event. -/
def nodesOf : Ev → List HtmlNode
  | Ev.open_ n a => [HtmlNode.open_ n a]
  | Ev.text t => [HtmlNode.text ((t.replace "<" "&lt;").replace ">" "&gt;")]
  | Ev.close n => if isSelfClosingTag n then [] else [HtmlNode.close n]

/-- All nodes appended over a run of events. -/
def appendedNodes (evs : List Ev) : List HtmlNode :=
  (evs.map nodesOf).flatten

/-- Is the node a close node? -/
def isCloseNode : HtmlNode → Bool
  | HtmlNode.close _ => true
  | _ => false

/-- Is the node an open node for a non-void tag? -/
def isNonVoidOpenNode : HtmlNode → Bool
  | HtmlNode.open_ n _ => !isSelfClosingTag n
  | _ => false

/-- No close node for a void tag occurs in the list. -/
def noVoidClose (l : List HtmlNode) : Bool :=
  l.all fun nd =>
    match nd with
    | HtmlNode.close n => !isSelfClosingTag n
    | _ => true

/-- The change each event makes to the `unclosed` counter in src/index.ts:
`unclosed++` on every open, `unclosed--` on every close, unchanged on text. -/
def evDelta : Ev → Int
  | Ev.open_ _ _ => 1
  | Ev.close _ => -1
  | Ev.text _ => 0

/-- The tag names of the open events of a stream, in document order. -/
def opensOf (evs : List Ev) : List String :=
  evs.filterMap fun e =>
    match e with
    | Ev.open_ n _ => some n
    | _ => none

/-- The `htmlString.replace` regex of `balanceHtmlString` in src/index.ts:
the pattern matches from the first unterminated `<` (one with no later `>`)
to the end of the string, and that suffix is removed. -/
def stripTrailingPartialTag (s : String) : String :=
  String.mk (stripAux s.data)
where
  stripAux : List Char → List Char
    | [] => []
    | c :: rest => if c == '<' && !rest.contains '>' then [] else c :: stripAux rest

/-- HTML whitespace, for the modelled tokenizer. -/
def isWs (c : Char) : Bool :=
  c == ' ' || c == '\t' || c == '\n' || c == '\r' || c == '\x0c'

/-- Does the character list begin an actual tag (`<` then a name start or
`/`)?  Anything else is text, as in a SAX HTML tokenizer. -/
def isTagStart : List Char → Bool
  | '<' :: c :: _ => c.isAlpha || c == '/'
  | _ => false

/-- Split off a maximal text run, stopping at the next tag start. -/
def textSpan : Nat → List Char → List Char × List Char
  | 0, cs => ([], cs)
  | _, [] => ([], [])
  | fuel + 1, c :: rest =>
      if isTagStart (c :: rest) then ([], c :: rest)
      else
        let pr := textSpan fuel rest
        (c :: pr.1, pr.2)

/-- Modelled from the spec: attribute scanning of the external tokenizer
contract (ordered attribute map, first occurrence of a duplicate name kept,
unquoted and missing values not coerced).  Double- or single-quoted values
run to the matching quote; unquoted values run to whitespace or to the end
of the tag; a missing value is the empty string.  Returns the attributes,
whether the tag used self-close syntax, and the rest of the input after
the closing angle bracket. -/
def parseAttrs : Nat → List Char → List (String × String) →
    List (String × String) × Bool × List Char
  | 0, cs, acc => (acc, false, cs)
  | fuel + 1, cs, acc =>
      match cs.dropWhile isWs with
      | [] => (acc, false, [])
      | '>' :: rest => (acc, false, rest)
      | '/' :: rest =>
          match rest with
          | '>' :: rest2 => (acc, true, rest2)
          | _ => parseAttrs fuel rest acc
      | c :: rest =>
          let cs2 := c :: rest
          let name := cs2.takeWhile fun ch => !isWs ch && ch != '=' && ch != '/' && ch != '>'
          if name.isEmpty then parseAttrs fuel rest acc
          else
            let after := (cs2.drop name.length).dropWhile isWs
            let vr :=
              match after with
              | '=' :: r1 =>
                  match r1.dropWhile isWs with
                  | '"' :: r2 => (r2.takeWhile (· != '"'), (r2.dropWhile (· != '"')).drop 1)
                  | '\'' :: r2 => (r2.takeWhile (· != '\''), (r2.dropWhile (· != '\'')).drop 1)
                  | r2 =>
                      (r2.takeWhile fun ch => !isWs ch && ch != '>',
                       r2.dropWhile fun ch => !isWs ch && ch != '>')
              | r1 => (([] : List Char), r1)
            let key := String.mk name
            let acc2 := if acc.any fun kv => kv.1 == key then acc
                        else acc ++ [(key, String.mk vr.1)]
            parseAttrs fuel vr.2 acc2

/-- Closes emitted for a close-tag token: everything above the matching open
is implicitly closed first; an unmatched close tag is ignored. -/
def popEmit (name : String) (stack : List String) : List Ev × List String :=
  if stack.contains name then
    let above := stack.takeWhile (· != name)
    ((above ++ [name]).map Ev.close, stack.drop (above.length + 1))
  else ([], stack)

/-- Modelled from the spec: the lexical scan of the external SAX tokenizer
(htmlparser2), which is not part of src/.  It turns text into open/close/text
callbacks in document order, gives a void or self-closed tag its synthesized
close immediately after its open, keeps stack discipline with implied closes,
and does not decode character entities.  Returns the callback events and the
stack of tags still open at end of input (most recent first). -/
def tokenizeAux : Nat → List Char → List String → List Ev × List String
  | 0, _, stack => ([], stack)
  | _, [], stack => ([], stack)
  | fuel + 1, '<' :: rest, stack =>
      match rest with
      | '/' :: r2 =>
          let name := String.mk (r2.takeWhile fun ch => ch != '>' && !isWs ch)
          let r3 := (r2.dropWhile (· != '>')).drop 1
          let pe := popEmit name stack
          let tl := tokenizeAux fuel r3 pe.2
          (pe.1 ++ tl.1, tl.2)
      | c :: _ =>
          if c.isAlpha then
            let name := String.mk (rest.takeWhile fun ch => !isWs ch && ch != '/' && ch != '>')
            let after := rest.drop (rest.takeWhile fun ch => !isWs ch && ch != '/' && ch != '>').length
            let pr := parseAttrs (after.length + 1) after []
            if isSelfClosingTag name || pr.2.1 then
              let tl := tokenizeAux fuel pr.2.2 stack
              (Ev.open_ name pr.1 :: Ev.close name :: tl.1, tl.2)
            else
              let tl := tokenizeAux fuel pr.2.2 (name :: stack)
              (Ev.open_ name pr.1 :: tl.1, tl.2)
          else
            let pr := textSpan (rest.length + 1) ('<' :: rest)
            let tl := tokenizeAux fuel pr.2 stack
            (Ev.text (String.mk pr.1) :: tl.1, tl.2)
      | [] =>
          let tl := tokenizeAux fuel [] stack
          (Ev.text "<" :: tl.1, tl.2)
  | fuel + 1, c :: rest, stack =>
      let pr := textSpan (rest.length + 1) (c :: rest)
      let tl := tokenizeAux fuel pr.2 stack
      (Ev.text (String.mk pr.1) :: tl.1, tl.2)

/-- Tokenizer run over a whole string: events in document order plus the
stack of tags left open at end of input. -/
def tokenizeCore (s : String) : List Ev × List String :=
  tokenizeAux (s.length + 1) s.data []

/-- All callback events `parser.end` produces for a string: the document
events followed by the synthesized closes for the still-open tags, in
reverse order of opening. -/
def tokenize (s : String) : List Ev :=
  (tokenizeCore s).1 ++ (tokenizeCore s).2.map Ev.close

/-- `balanceHtmlString` of src/index.ts over the modelled tokenizer: strip a
trailing partial tag, feed every event of `parser.end` to a fresh unbuffered
engine, and concatenate everything it enqueues. -/
def balanceHtmlString (htmlString : String) : String :=
  String.join
    (processEvents false (tokenize (stripTrailingPartialTag htmlString)) initState).outputs

end HtmlBalancer

namespace HtmlBalancer

theorem sjoin_cons (a : String) (l : List String) :
    String.join (a :: l) = a ++ String.join l := by
  apply String.ext
  simp [String.join_eq, String.data_append]

theorem sjoin_append (l1 l2 : List String) :
    String.join (l1 ++ l2) = String.join l1 ++ String.join l2 := by
  apply String.ext
  simp [String.join_eq, String.data_append]

theorem sjoin_nil : String.join ([] : List String) = "" := rfl

theorem hnts_nil : htmlNodesToString [] = "" := rfl

theorem hnts_cons (nd : HtmlNode) (l : List HtmlNode) :
    htmlNodesToString (nd :: l) = renderNode nd ++ htmlNodesToString l := by
  simp [htmlNodesToString, sjoin_cons]

theorem hnts_append (l1 l2 : List HtmlNode) :
    htmlNodesToString (l1 ++ l2) = htmlNodesToString l1 ++ htmlNodesToString l2 := by
  simp [htmlNodesToString, sjoin_append]

theorem hnts_single (nd : HtmlNode) : htmlNodesToString [nd] = renderNode nd := by
  simp [hnts_cons, hnts_nil]

theorem flush_unclosed (st : EngineState) : (flush st).unclosed = st.unclosed := by
  unfold flush; split <;> rfl

theorem flush_buffer (st : EngineState) : (flush st).buffer = [] := by
  unfold flush
  split
  · rfl
  · rename_i h
    simp at h
    simpa using h

theorem totalOut_flush (st : EngineState) : totalOut (flush st) = totalOut st := by
  unfold flush
  split
  · simp [totalOut, sjoin_append, sjoin_cons, sjoin_nil, hnts_nil]
  · rfl

theorem unclosed_onopentag (b : Bool) (n : String) (a : List (String × String))
    (st : EngineState) : (onopentag b n a st).unclosed = st.unclosed + 1 := by
  unfold onopentag
  dsimp only
  split
  · rw [flush_unclosed]
  · rfl

theorem unclosed_ontext (b : Bool) (t : String) (st : EngineState) :
    (ontext b t st).unclosed = st.unclosed := by
  unfold ontext
  dsimp only
  split
  · rw [flush_unclosed]
  · rfl

theorem unclosed_onclosetag (b : Bool) (n : String) (st : EngineState) :
    (onclosetag b n st).unclosed = st.unclosed - 1 := by
  unfold onclosetag
  dsimp only
  split <;> split <;> first | rw [flush_unclosed] | rfl

theorem unclosed_step (b : Bool) (st : EngineState) (e : Ev) :
    (step b st e).unclosed = st.unclosed + evDelta e := by
  cases e <;> simp [step, evDelta, unclosed_onopentag, unclosed_ontext, unclosed_onclosetag]
  all_goals omega

theorem totalOut_append_node (u : Int) (bf : List HtmlNode) (outs : List String)
    (nd : HtmlNode) (st : EngineState) (hb : bf = st.buffer ++ [nd]) (ho : outs = st.outputs) :
    totalOut { unclosed := u, buffer := bf, outputs := outs } = totalOut st ++ renderNode nd := by
  subst hb ho
  simp [totalOut, hnts_append, hnts_single, String.append_assoc]

theorem totalOut_keep (u : Int) (bf : List HtmlNode) (outs : List String)
    (st : EngineState) (hb : bf = st.buffer) (ho : outs = st.outputs) :
    totalOut { unclosed := u, buffer := bf, outputs := outs } = totalOut st := by
  subst hb ho
  simp [totalOut]

theorem totalOut_onopentag (b : Bool) (n : String) (a : List (String × String))
    (st : EngineState) :
    totalOut (onopentag b n a st) = totalOut st ++ renderNode (HtmlNode.open_ n a) := by
  unfold onopentag
  dsimp only
  split
  · rw [totalOut_flush]
    exact totalOut_append_node _ _ _ _ st rfl rfl
  · exact totalOut_append_node _ _ _ _ st rfl rfl

theorem totalOut_ontext (b : Bool) (t : String) (st : EngineState) :
    totalOut (ontext b t st) = totalOut st ++ ((t.replace "<" "&lt;").replace ">" "&gt;") := by
  unfold ontext
  dsimp only
  have hr : renderNode (HtmlNode.text ((t.replace "<" "&lt;").replace ">" "&gt;")) =
      (t.replace "<" "&lt;").replace ">" "&gt;" := rfl
  split
  · rw [totalOut_flush, ← hr]
    exact totalOut_append_node _ _ _ _ st rfl rfl
  · rw [← hr]
    exact totalOut_append_node _ _ _ _ st rfl rfl

theorem totalOut_onclosetag (b : Bool) (n : String) (st : EngineState) :
    totalOut (onclosetag b n st) =
      totalOut st ++ htmlNodesToString (nodesOf (Ev.close n)) := by
  unfold onclosetag
  dsimp only
  by_cases hv : isSelfClosingTag n
  · have hn : htmlNodesToString (nodesOf (Ev.close n)) = "" := by
      simp [nodesOf, hv, hnts_nil]
    have hc : ¬ ((!isSelfClosingTag n) = true) := by simp [hv]
    rw [hn, String.append_empty, if_neg hc]
    split
    · rw [totalOut_flush]
      exact totalOut_keep _ _ _ st rfl rfl
    · exact totalOut_keep _ _ _ st rfl rfl
  · have hv2 : isSelfClosingTag n = false := by simpa using hv
    have hn : htmlNodesToString (nodesOf (Ev.close n)) = renderNode (HtmlNode.close n) := by
      simp [nodesOf, hv2, hnts_single]
    have hc : (!isSelfClosingTag n) = true := by simp [hv2]
    rw [hn, if_pos hc]
    split
    · rw [totalOut_flush]
      exact totalOut_append_node _ _ _ _ st rfl rfl
    · exact totalOut_append_node _ _ _ _ st rfl rfl

theorem totalOut_step (b : Bool) (st : EngineState) (e : Ev) :
    totalOut (step b st e) = totalOut st ++ htmlNodesToString (nodesOf e) := by
  cases e with
  | open_ n a =>
      rw [show step b st (Ev.open_ n a) = onopentag b n a st from rfl, totalOut_onopentag]
      simp [nodesOf, hnts_single]
  | close n => exact totalOut_onclosetag b n st
  | text t =>
      rw [show step b st (Ev.text t) = ontext b t st from rfl, totalOut_ontext]
      simp [nodesOf, hnts_single, renderNode]

theorem processEvents_nil (b : Bool) (st : EngineState) :
    processEvents b [] st = st := rfl

theorem processEvents_cons (b : Bool) (e : Ev) (evs : List Ev) (st : EngineState) :
    processEvents b (e :: evs) st = processEvents b evs (step b st e) := rfl

theorem appendedNodes_nil : appendedNodes [] = [] := rfl

theorem appendedNodes_cons (e : Ev) (evs : List Ev) :
    appendedNodes (e :: evs) = nodesOf e ++ appendedNodes evs := by
  simp [appendedNodes]

theorem totalOut_processEvents (b : Bool) (evs : List Ev) (st : EngineState) :
    totalOut (processEvents b evs st) = totalOut st ++ htmlNodesToString (appendedNodes evs) := by
  induction evs generalizing st with
  | nil => simp [processEvents_nil, appendedNodes_nil, hnts_nil]
  | cons e evs ih =>
      rw [processEvents_cons, ih, totalOut_step, appendedNodes_cons, hnts_append,
        String.append_assoc]

theorem totalOut_initState : totalOut initState = "" := rfl

theorem endInput_nil (b : Bool) (st : EngineState) : endInput b [] st = st := rfl

theorem endInput_cons (b : Bool) (n : String) (stk : List String) (st : EngineState) :
    endInput b (n :: stk) st = endInput b stk (onclosetag b n st) := rfl

theorem totalOut_endInput (b : Bool) (stk : List String) (st : EngineState)
    (h : ∀ n ∈ stk, isSelfClosingTag n = false) :
    totalOut (endInput b stk st) =
      totalOut st ++ String.join (stk.map fun n => "</" ++ n ++ ">") := by
  induction stk generalizing st with
  | nil => simp [endInput_nil, sjoin_nil]
  | cons n stk ih =>
      have hv : isSelfClosingTag n = false := h n (List.mem_cons_self n stk)
      have hrest : ∀ m ∈ stk, isSelfClosingTag m = false := fun m hm =>
        h m (List.mem_cons_of_mem n hm)
      rw [endInput_cons, ih _ hrest, totalOut_onclosetag]
      have hn : htmlNodesToString (nodesOf (Ev.close n)) = "</" ++ n ++ ">" := by
        simp [nodesOf, hv, hnts_single, renderNode]
      rw [hn, List.map_cons, sjoin_cons, String.append_assoc]

theorem unclosed_endInput (b : Bool) (stk : List String) (st : EngineState) :
    (endInput b stk st).unclosed = st.unclosed - stk.length := by
  induction stk generalizing st with
  | nil => simp [endInput_nil]
  | cons n stk ih =>
      rw [endInput_cons, ih, unclosed_onclosetag]
      simp only [List.length_cons]
      push_cast
      omega

theorem wfStep_count {ts ts2 : TokState} {e : Ev} (h : wfStep ts e = some ts2) :
    (tsCount ts2 : Int) = tsCount ts + evDelta e := by
  obtain ⟨pending, stack⟩ := ts
  obtain ⟨pending2, stack2⟩ := ts2
  cases pending with
  | some v =>
      cases e with
      | open_ n a => simp [wfStep] at h
      | text t => simp [wfStep] at h
      | close n =>
          by_cases hn : n = v
          · simp [wfStep, hn] at h
            obtain ⟨h1, h2⟩ := h
            subst h1
            subst h2
            simp [tsCount, evDelta]
          · simp [wfStep, hn] at h
  | none =>
      cases e with
      | open_ n a =>
          by_cases hv : isSelfClosingTag n
          · simp [wfStep, hv] at h
            obtain ⟨h1, h2⟩ := h
            subst h1
            subst h2
            simp [tsCount, evDelta]
          · simp [wfStep, hv] at h
            obtain ⟨h1, h2⟩ := h
            subst h1
            subst h2
            simp [tsCount, evDelta]
      | text t =>
          simp [wfStep] at h
          obtain ⟨h1, h2⟩ := h
          subst h1
          subst h2
          simp [tsCount, evDelta]
      | close n =>
          by_cases hv : isSelfClosingTag n
          · simp [wfStep, hv] at h
          · cases stack with
            | nil => simp [wfStep, hv] at h
            | cons m st2 =>
                by_cases hm : m = n
                · simp [wfStep, hv, hm] at h
                  obtain ⟨h1, h2⟩ := h
                  subst h1
                  subst h2
                  simp [tsCount, evDelta]
                · simp [wfStep, hv, hm] at h

theorem wfStep_stack_nonvoid {ts ts2 : TokState} {e : Ev} (h : wfStep ts e = some ts2)
    (hs : ∀ n ∈ ts.2, isSelfClosingTag n = false) :
    ∀ n ∈ ts2.2, isSelfClosingTag n = false := by
  obtain ⟨pending, stack⟩ := ts
  obtain ⟨pending2, stack2⟩ := ts2
  cases pending with
  | some v =>
      cases e with
      | open_ n a => simp [wfStep] at h
      | text t => simp [wfStep] at h
      | close n =>
          by_cases hn : n = v
          · simp [wfStep, hn] at h
            obtain ⟨h1, h2⟩ := h
            subst h1
            subst h2
            exact hs
          · simp [wfStep, hn] at h
  | none =>
      cases e with
      | open_ n a =>
          by_cases hv : isSelfClosingTag n
          · simp [wfStep, hv] at h
            obtain ⟨h1, h2⟩ := h
            subst h1
            subst h2
            exact hs
          · simp [wfStep, hv] at h
            obtain ⟨h1, h2⟩ := h
            subst h1
            subst h2
            intro m hm
            rcases List.mem_cons.mp hm with hm2 | hm2
            · subst hm2
              simpa using hv
            · exact hs m hm2
      | text t =>
          simp [wfStep] at h
          obtain ⟨h1, h2⟩ := h
          subst h1
          subst h2
          exact hs
      | close n =>
          by_cases hv : isSelfClosingTag n
          · simp [wfStep, hv] at h
          · cases stack with
            | nil => simp [wfStep, hv] at h
            | cons m st2 =>
                by_cases hm : m = n
                · simp [wfStep, hv, hm] at h
                  obtain ⟨h1, h2⟩ := h
                  subst h1
                  subst h2
                  intro x hx
                  exact hs x (List.mem_cons_of_mem m hx)
                · simp [wfStep, hv, hm] at h

theorem wfStep_pending_void {ts ts2 : TokState} {e : Ev} (h : wfStep ts e = some ts2)
    (hp : ∀ v, ts.1 = some v → isSelfClosingTag v = true) :
    ∀ v, ts2.1 = some v → isSelfClosingTag v = true := by
  obtain ⟨pending, stack⟩ := ts
  obtain ⟨pending2, stack2⟩ := ts2
  cases pending with
  | some v =>
      cases e with
      | open_ n a => simp [wfStep] at h
      | text t => simp [wfStep] at h
      | close n =>
          by_cases hn : n = v
          · simp [wfStep, hn] at h
            obtain ⟨h1, h2⟩ := h
            subst h1
            subst h2
            intro w hw
            cases hw
          · simp [wfStep, hn] at h
  | none =>
      cases e with
      | open_ n a =>
          by_cases hv : isSelfClosingTag n
          · simp [wfStep, hv] at h
            obtain ⟨h1, h2⟩ := h
            subst h1
            subst h2
            intro w hw
            cases hw
            exact hv
          · simp [wfStep, hv] at h
            obtain ⟨h1, h2⟩ := h
            subst h1
            subst h2
            intro w hw
            cases hw
      | text t =>
          simp [wfStep] at h
          obtain ⟨h1, h2⟩ := h
          subst h1
          subst h2
          intro w hw
          cases hw
      | close n =>
          by_cases hv : isSelfClosingTag n
          · simp [wfStep, hv] at h
          · cases stack with
            | nil => simp [wfStep, hv] at h
            | cons m st2 =>
                by_cases hm : m = n
                · simp [wfStep, hv, hm] at h
                  obtain ⟨h1, h2⟩ := h
                  subst h1
                  subst h2
                  intro w hw
                  cases hw
                · simp [wfStep, hv, hm] at h

theorem opensOf_nil : opensOf [] = [] := rfl

theorem opensOf_cons (e : Ev) (evs : List Ev) :
    opensOf (e :: evs) = opensOf [e] ++ opensOf evs := by
  cases e <;> simp [opensOf]

theorem wfStep_sublist {ts ts2 : TokState} {e : Ev} (h : wfStep ts e = some ts2) :
    ts2.2.reverse.Sublist (ts.2.reverse ++ opensOf [e]) := by
  obtain ⟨pending, stack⟩ := ts
  obtain ⟨pending2, stack2⟩ := ts2
  cases pending with
  | some v =>
      cases e with
      | open_ n a => simp [wfStep] at h
      | text t => simp [wfStep] at h
      | close n =>
          by_cases hn : n = v
          · simp [wfStep, hn] at h
            obtain ⟨h1, h2⟩ := h
            subst h1
            subst h2
            simp [opensOf]
          · simp [wfStep, hn] at h
  | none =>
      cases e with
      | open_ n a =>
          by_cases hv : isSelfClosingTag n
          · simp [wfStep, hv] at h
            obtain ⟨h1, h2⟩ := h
            subst h1
            subst h2
            simp [opensOf]
          · simp [wfStep, hv] at h
            obtain ⟨h1, h2⟩ := h
            subst h1
            subst h2
            simp [opensOf]
      | text t =>
          simp [wfStep] at h
          obtain ⟨h1, h2⟩ := h
          subst h1
          subst h2
          simp [opensOf]
      | close n =>
          by_cases hv : isSelfClosingTag n
          · simp [wfStep, hv] at h
          · cases stack with
            | nil => simp [wfStep, hv] at h
            | cons m st2 =>
                by_cases hm : m = n
                · simp [wfStep, hv, hm] at h
                  obtain ⟨h1, h2⟩ := h
                  subst h1
                  subst h2
                  simp [opensOf]
                · simp [wfStep, hv, hm] at h

theorem wfStep_node_count {ts ts2 : TokState} {e : Ev} (h : wfStep ts e = some ts2)
    (hp : ∀ v, ts.1 = some v → isSelfClosingTag v = true) :
    (nodesOf e).countP isNonVoidOpenNode + ts.2.length =
      (nodesOf e).countP isCloseNode + ts2.2.length := by
  obtain ⟨pending, stack⟩ := ts
  obtain ⟨pending2, stack2⟩ := ts2
  cases pending with
  | some v =>
      cases e with
      | open_ n a => simp [wfStep] at h
      | text t => simp [wfStep] at h
      | close n =>
          by_cases hn : n = v
          · simp [wfStep, hn] at h
            obtain ⟨h1, h2⟩ := h
            subst h1
            subst h2
            have hv : isSelfClosingTag n = true := by
              rw [hn]
              exact hp v rfl
            simp [nodesOf, hv]
          · simp [wfStep, hn] at h
  | none =>
      cases e with
      | open_ n a =>
          by_cases hv : isSelfClosingTag n
          · simp [wfStep, hv] at h
            obtain ⟨h1, h2⟩ := h
            subst h1
            subst h2
            simp [nodesOf, isNonVoidOpenNode, isCloseNode, hv, List.countP_cons]
          · simp [wfStep, hv] at h
            obtain ⟨h1, h2⟩ := h
            subst h1
            subst h2
            have hv2 : isSelfClosingTag n = false := by simpa using hv
            simp [nodesOf, isNonVoidOpenNode, isCloseNode, hv2, List.countP_cons]
            omega
      | text t =>
          simp [wfStep] at h
          obtain ⟨h1, h2⟩ := h
          subst h1
          subst h2
          simp [nodesOf, isNonVoidOpenNode, isCloseNode, List.countP_cons]
      | close n =>
          by_cases hv : isSelfClosingTag n
          · simp [wfStep, hv] at h
          · cases stack with
            | nil => simp [wfStep, hv] at h
            | cons m st2 =>
                by_cases hm : m = n
                · simp [wfStep, hv, hm] at h
                  obtain ⟨h1, h2⟩ := h
                  subst h1
                  subst h2
                  have hv2 : isSelfClosingTag n = false := by simpa using hv
                  simp [nodesOf, isNonVoidOpenNode, isCloseNode, hv2, List.countP_cons]
                  omega
                · simp [wfStep, hv, hm] at h

theorem wfRun_nil (ts : TokState) : wfRun [] ts = some ts := rfl

theorem wfRun_cons_some {e : Ev} {evs : List Ev} {ts ts1 ts2 : TokState}
    (h1 : wfStep ts e = some ts1) (h2 : wfRun evs ts1 = some ts2) :
    wfRun (e :: evs) ts = some ts2 := by
  simp [wfRun, h1, h2]

theorem wfRun_cons_elim {e : Ev} {evs : List Ev} {ts ts2 : TokState}
    (h : wfRun (e :: evs) ts = some ts2) :
    ∃ ts1, wfStep ts e = some ts1 ∧ wfRun evs ts1 = some ts2 := by
  rw [wfRun] at h
  cases hstep : wfStep ts e with
  | none => rw [hstep] at h; cases h
  | some ts1 =>
      rw [hstep] at h
      exact ⟨ts1, rfl, h⟩

theorem wfRun_stack_nonvoid {evs : List Ev} {ts ts2 : TokState}
    (h : wfRun evs ts = some ts2) (hs : ∀ n ∈ ts.2, isSelfClosingTag n = false) :
    ∀ n ∈ ts2.2, isSelfClosingTag n = false := by
  induction evs generalizing ts with
  | nil =>
      rw [wfRun_nil] at h
      cases h
      exact hs
  | cons e evs ih =>
      obtain ⟨ts1, hstep, hrest⟩ := wfRun_cons_elim h
      exact ih hrest (wfStep_stack_nonvoid hstep hs)

theorem wfRun_pending_void {evs : List Ev} {ts ts2 : TokState}
    (h : wfRun evs ts = some ts2) (hp : ∀ v, ts.1 = some v → isSelfClosingTag v = true) :
    ∀ v, ts2.1 = some v → isSelfClosingTag v = true := by
  induction evs generalizing ts with
  | nil =>
      rw [wfRun_nil] at h
      cases h
      exact hp
  | cons e evs ih =>
      obtain ⟨ts1, hstep, hrest⟩ := wfRun_cons_elim h
      exact ih hrest (wfStep_pending_void hstep hp)

theorem wfRun_sublist {evs : List Ev} {ts ts2 : TokState}
    (h : wfRun evs ts = some ts2) :
    ts2.2.reverse.Sublist (ts.2.reverse ++ opensOf evs) := by
  induction evs generalizing ts with
  | nil =>
      rw [wfRun_nil] at h
      cases h
      simp [opensOf_nil]
  | cons e evs ih =>
      obtain ⟨ts1, hstep, hrest⟩ := wfRun_cons_elim h
      have h1 := wfStep_sublist hstep
      have h2 := ih hrest
      have h3 : (ts1.2.reverse ++ opensOf evs).Sublist
          ((ts.2.reverse ++ opensOf [e]) ++ opensOf evs) :=
        List.Sublist.append_right h1 (opensOf evs)
      rw [opensOf_cons, ← List.append_assoc]
      exact h2.trans h3

theorem wfRun_node_count {evs : List Ev} {ts ts2 : TokState}
    (h : wfRun evs ts = some ts2) (hp : ∀ v, ts.1 = some v → isSelfClosingTag v = true) :
    (appendedNodes evs).countP isNonVoidOpenNode + ts.2.length =
      (appendedNodes evs).countP isCloseNode + ts2.2.length := by
  induction evs generalizing ts with
  | nil =>
      rw [wfRun_nil] at h
      cases h
      simp [appendedNodes_nil]
  | cons e evs ih =>
      obtain ⟨ts1, hstep, hrest⟩ := wfRun_cons_elim h
      have h1 := wfStep_node_count hstep hp
      have h2 := ih hrest (wfStep_pending_void hstep hp)
      rw [appendedNodes_cons, List.countP_append, List.countP_append]
      omega

theorem step_zero_buffer {b : Bool} {st : EngineState} {e : Ev}
    (hpos : 0 ≤ st.unclosed) (h0 : (step b st e).unclosed = 0) :
    (step b st e).buffer = [] := by
  cases e with
  | open_ n a =>
      exfalso
      rw [unclosed_step] at h0
      simp [evDelta] at h0
      omega
  | text t =>
      have h1 : st.unclosed = 0 := by
        rw [show (step b st (Ev.text t)).unclosed = (ontext b t st).unclosed from rfl,
          unclosed_ontext] at h0
        exact h0
      show (ontext b t st).buffer = []
      unfold ontext
      dsimp only
      rw [if_pos (by simp [h1])]
      exact flush_buffer _
  | close n =>
      have h1 : st.unclosed - 1 = 0 := by
        rw [show (step b st (Ev.close n)).unclosed = (onclosetag b n st).unclosed from rfl,
          unclosed_onclosetag] at h0
        exact h0
      show (onclosetag b n st).buffer = []
      unfold onclosetag
      dsimp only
      by_cases hv : isSelfClosingTag n
      · have hc : ¬ ((!isSelfClosingTag n) = true) := by simp [hv]
        rw [if_neg hc, if_pos (by simp [h1])]
        exact flush_buffer _
      · have hc : (!isSelfClosingTag n) = true := by
          have hv2 : isSelfClosingTag n = false := by simpa using hv
          simp [hv2]
        rw [if_pos hc, if_pos (by simp [h1])]
        exact flush_buffer _

theorem wfRun_engine_inv (b : Bool) {evs : List Ev} {ts ts2 : TokState} (st : EngineState)
    (h : wfRun evs ts = some ts2) (h1 : st.unclosed = (tsCount ts : Int))
    (h2 : st.unclosed = 0 → st.buffer = []) :
    (processEvents b evs st).unclosed = (tsCount ts2 : Int) ∧
      ((processEvents b evs st).unclosed = 0 → (processEvents b evs st).buffer = []) := by
  induction evs generalizing ts st with
  | nil =>
      rw [wfRun_nil] at h
      cases h
      exact ⟨h1, h2⟩
  | cons e evs ih =>
      obtain ⟨ts1, hstep, hrest⟩ := wfRun_cons_elim h
      rw [processEvents_cons]
      have hyp1 : (step b st e).unclosed = (tsCount ts1 : Int) := by
        rw [unclosed_step, h1, ← wfStep_count hstep]
      have hyp2 : (step b st e).unclosed = 0 → (step b st e).buffer = [] :=
        fun hz => step_zero_buffer (by rw [h1]; positivity) hz
      exact ih (step b st e) hrest hyp1 hyp2

theorem endInput_final (b : Bool) {stk : List String} {st : EngineState}
    (h1 : st.unclosed = (stk.length : Int)) (h2 : st.unclosed = 0 → st.buffer = []) :
    (endInput b stk st).unclosed = 0 ∧ (endInput b stk st).buffer = [] := by
  induction stk generalizing st with
  | nil =>
      rw [endInput_nil]
      refine ⟨by simpa using h1, h2 (by simpa using h1)⟩
  | cons n stk ih =>
      rw [endInput_cons]
      have hu : (onclosetag b n st).unclosed = (stk.length : Int) := by
        rw [unclosed_onclosetag, h1]
        simp [List.length_cons]
      have hb : (onclosetag b n st).unclosed = 0 → (onclosetag b n st).buffer = [] := by
        intro hz
        have : (step b st (Ev.close n)).unclosed = 0 := hz
        have hpos : 0 ≤ st.unclosed := by rw [h1]; positivity
        exact step_zero_buffer hpos this
      exact ih hu hb

theorem step_true_keep_inv {st : EngineState} {e : Ev}
    (h : st.unclosed > 0 → st.buffer ≠ []) :
    (step true st e).unclosed > 0 → (step true st e).buffer ≠ [] := by
  cases e with
  | open_ n a =>
      intro _
      show (onopentag true n a st).buffer ≠ []
      unfold onopentag
      dsimp only
      rw [if_neg (by simp)]
      simp
  | text t =>
      intro hgt
      have hu : (ontext true t st).unclosed = st.unclosed := unclosed_ontext true t st
      show (ontext true t st).buffer ≠ []
      unfold ontext
      dsimp only
      have hne : st.unclosed ≠ 0 := by
        intro hz
        rw [show (step true st (Ev.text t)).unclosed = (ontext true t st).unclosed from rfl,
          hu, hz] at hgt
        exact lt_irrefl 0 hgt
      rw [if_neg (by simp [hne])]
      simp
  | close n =>
      intro hgt
      have hu : (onclosetag true n st).unclosed = st.unclosed - 1 :=
        unclosed_onclosetag true n st
      have hne : st.unclosed - 1 ≠ 0 := by
        intro hz
        rw [show (step true st (Ev.close n)).unclosed = (onclosetag true n st).unclosed from rfl,
          hu, hz] at hgt
        exact lt_irrefl 0 hgt
      have hgt2 : st.unclosed - 1 > 0 := by
        rw [show (step true st (Ev.close n)).unclosed = (onclosetag true n st).unclosed from rfl,
          hu] at hgt
        exact hgt
      show (onclosetag true n st).buffer ≠ []
      unfold onclosetag
      dsimp only
      by_cases hv : isSelfClosingTag n
      · have hc : ¬ ((!isSelfClosingTag n) = true) := by simp [hv]
        rw [if_neg hc, if_neg (by simp [hne])]
        exact h (by omega)
      · have hc : (!isSelfClosingTag n) = true := by
          have hv2 : isSelfClosingTag n = false := by simpa using hv
          simp [hv2]
        rw [if_pos hc, if_neg (by simp [hne])]
        simp

theorem processEvents_true_inv (evs : List Ev) (st : EngineState)
    (h : st.unclosed > 0 → st.buffer ≠ []) :
    (processEvents true evs st).unclosed > 0 → (processEvents true evs st).buffer ≠ [] := by
  induction evs generalizing st with
  | nil => exact h
  | cons e evs ih =>
      rw [processEvents_cons]
      exact ih (step true st e) (step_true_keep_inv h)

theorem step_false_buffer (st : EngineState) (e : Ev) : (step false st e).buffer = [] := by
  cases e with
  | open_ n a =>
      show (onopentag false n a st).buffer = []
      unfold onopentag
      dsimp only
      rw [if_pos (by simp)]
      exact flush_buffer _
  | text t =>
      show (ontext false t st).buffer = []
      unfold ontext
      dsimp only
      rw [if_pos (by simp)]
      exact flush_buffer _
  | close n =>
      show (onclosetag false n st).buffer = []
      unfold onclosetag
      dsimp only
      by_cases hv : isSelfClosingTag n
      · have hc : ¬ ((!isSelfClosingTag n) = true) := by simp [hv]
        rw [if_neg hc, if_pos (by simp)]
        exact flush_buffer _
      · have hc : (!isSelfClosingTag n) = true := by
          have hv2 : isSelfClosingTag n = false := by simpa using hv
          simp [hv2]
        rw [if_pos hc, if_pos (by simp)]
        exact flush_buffer _

theorem processEvents_false_buffer (evs : List Ev) (st : EngineState)
    (h : st.buffer = []) : (processEvents false evs st).buffer = [] := by
  induction evs generalizing st with
  | nil => exact h
  | cons e evs ih =>
      rw [processEvents_cons]
      exact ih (step false st e) (step_false_buffer st e)

theorem joinSep_expand (l : List String) (a : String) :
    joinSep " " (a :: l) = a ++ String.join (l.map fun x => " " ++ x) := by
  induction l generalizing a with
  | nil => simp [joinSep, sjoin_nil, String.append_empty]
  | cons b rest ih =>
      show a ++ " " ++ joinSep " " (b :: rest) = _
      rw [ih b]
      simp [sjoin_cons, String.append_assoc]

/-- C7: every Text event has its raw content escaped (`<` to `&lt;`, `>` to
`&gt;`, all occurrences) before the text node is appended, and the serializer
renders text node content verbatim: the committed output grows by exactly the
escaped content. -/
theorem text_escaping_and_verbatim_render (b : Bool) (t : String) (st : EngineState) :
    totalOut (ontext b t st) = totalOut st ++ ((t.replace "<" "&lt;").replace ">" "&gt;") ∧
    (∀ s, htmlNodesToString [HtmlNode.text s] = s) ∧
    (∀ s, renderNode (HtmlNode.text s) = s) := by
  refine ⟨totalOut_ontext b t st, ?_, ?_⟩
  · intro s
    rw [hnts_single]
    rfl
  · intro s
    rfl

/-- C8: an open tag renders its attributes in list (encounter) order, each as
name=value with the value JSON-quoted, an attribute with no explicit value
(empty string value) rendering as attr="", and void names get self-close
syntax; the spec's checkbox example produces exactly one chunk. -/
theorem open_tag_attribute_rendering :
    (∀ name attributes, htmlNodesToString [HtmlNode.open_ name attributes] =
      "<" ++ name ++
        String.join (attributes.map fun kv => " " ++ kv.1 ++ "=" ++ jsonStringify kv.2) ++
        (if isSelfClosingTag name then "/>" else ">")) ∧
    jsonStringify "" = "\"\"" ∧
    (processEvents false
        [Ev.open_ "input" [("disabled", ""), ("checked", ""), ("type", "checkbox")],
         Ev.close "input"] initState).outputs =
      ["<input disabled=\"\" checked=\"\" type=\"checkbox\"/>"] := by
  refine ⟨?_, by decide, by decide⟩
  intro name attributes
  rw [hnts_single]
  show "<" ++ joinSep " "
      (name :: attributes.map fun kv => kv.1 ++ "=" ++ jsonStringify kv.2) ++
      (if isSelfClosingTag name then "/" else "") ++ ">" = _
  rw [joinSep_expand, List.map_map]
  have hslash : "/" ++ ">" = "/>" := by decide
  by_cases hv : isSelfClosingTag name
  · simp only [hv, if_true]
    rw [← hslash]
    simp [String.append_assoc, Function.comp_def]
  · have hv2 : isSelfClosingTag name = false := by simpa using hv
    simp only [hv2, Bool.false_eq_true, if_false]
    simp [String.append_assoc, String.empty_append, Function.comp_def]

/-- C10: attribute values are serialized with JSON string escaping inside
double quotes: a double quote becomes backslash-quote, a backslash becomes
double-backslash, never an HTML entity, and every value is double-quoted. -/
theorem attribute_value_json_escaping :
    htmlNodesToString [HtmlNode.open_ "i" [("t", "a\"b")]] = "<i t=\"a\\\"b\">" ∧
    htmlNodesToString [HtmlNode.open_ "i" [("t", "a\\b")]] = "<i t=\"a\\\\b\">" ∧
    jsonEscapeChar '"' = "\\\"" ∧
    jsonEscapeChar '\\' = "\\\\" ∧
    (∀ s, jsonStringify s = "\"" ++ String.join (s.data.map jsonEscapeChar) ++ "\"") := by
  refine ⟨by decide, by decide, by decide, by decide, fun s => rfl⟩

/-- C5 counterexample: the claim says an Open event with a void tag name
leaves the depth counter unchanged, but `onopentag` increments `unclosed`
unconditionally: opening the void tag br takes the depth from 0 to 1. -/
theorem void_open_changes_depth :
    isSelfClosingTag "br" = true ∧ initState.unclosed = 0 ∧
    (onopentag false "br" [] initState).unclosed = 1 := by decide

/-- C5 amended: every Open increments depth and every Close decrements depth,
void or not; a void tag leaves depth unchanged only across its Open plus the
synthesized Close that immediately follows it, and a Close for a void name,
while decrementing depth, appends nothing (never emits a stray closing tag). -/
theorem void_depth_net_effect (b : Bool) (name : String)
    (attributes : List (String × String)) (st : EngineState)
    (h : isSelfClosingTag name = true) :
    (onopentag b name attributes st).unclosed = st.unclosed + 1 ∧
    (onclosetag b name st).unclosed = st.unclosed - 1 ∧
    (onclosetag b name (onopentag b name attributes st)).unclosed = st.unclosed ∧
    totalOut (onclosetag b name st) = totalOut st := by
  refine ⟨unclosed_onopentag b name attributes st, unclosed_onclosetag b name st, ?_, ?_⟩
  · rw [unclosed_onclosetag, unclosed_onopentag]
    omega
  · rw [totalOut_onclosetag]
    have hn : htmlNodesToString (nodesOf (Ev.close name)) = "" := by
      simp [nodesOf, h, hnts_nil]
    rw [hn, String.append_empty]

/-- C5 amended, witness at the void tag br on the initial state. -/
theorem void_depth_net_effect_witness :
    isSelfClosingTag "br" = true ∧
    ((onopentag false "br" [] initState).unclosed = initState.unclosed + 1 ∧
     (onclosetag false "br" initState).unclosed = initState.unclosed - 1 ∧
     (onclosetag false "br" (onopentag false "br" [] initState)).unclosed =
       initState.unclosed ∧
     totalOut (onclosetag false "br" initState) = totalOut initState) :=
  ⟨by decide, void_depth_net_effect false "br" [] initState (by decide)⟩

/-- C3 counterexample: the claim says every event produces its own immediate
output chunk in unbuffered mode, but the synthesized Close for the void tag
br (delivered immediately after its Open) appends nothing to the empty
buffer, so it enqueues no chunk at all. -/
theorem unbuffered_void_close_no_chunk :
    (step false (processEvents false [Ev.open_ "br" []] initState) (Ev.close "br")).outputs =
      (processEvents false [Ev.open_ "br" []] initState).outputs := by decide

/-- C3 amended: in unbuffered mode every Open event and every Text event
produces exactly one immediate output chunk, and a Close event produces
exactly one immediate chunk when its tag is non-void; a Close for a void tag
produces no chunk (nothing is appended and the buffer is already empty). -/
theorem unbuffered_flush_per_event (evs : List Ev) (ev : Ev) :
    match ev with
    | Ev.open_ n a =>
        (step false (processEvents false evs initState) ev).outputs =
          (processEvents false evs initState).outputs ++ [renderNode (HtmlNode.open_ n a)]
    | Ev.text t =>
        (step false (processEvents false evs initState) ev).outputs =
          (processEvents false evs initState).outputs ++
            [(t.replace "<" "&lt;").replace ">" "&gt;"]
    | Ev.close n =>
        if isSelfClosingTag n then
          (step false (processEvents false evs initState) ev).outputs =
            (processEvents false evs initState).outputs
        else
          (step false (processEvents false evs initState) ev).outputs =
            (processEvents false evs initState).outputs ++ ["</" ++ n ++ ">"] := by
  have hbuf : (processEvents false evs initState).buffer = [] :=
    processEvents_false_buffer evs initState rfl
  set st := processEvents false evs initState with hst
  cases ev with
  | open_ n a =>
      show (onopentag false n a st).outputs = st.outputs ++ [renderNode (HtmlNode.open_ n a)]
      unfold onopentag
      dsimp only
      rw [if_pos (by simp)]
      unfold flush
      rw [hbuf]
      simp [hnts_single]
  | text t =>
      show (ontext false t st).outputs = st.outputs ++
        [(t.replace "<" "&lt;").replace ">" "&gt;"]
      unfold ontext
      dsimp only
      rw [if_pos (by simp)]
      unfold flush
      rw [hbuf]
      simp [hnts_single]
      rfl
  | close n =>
      by_cases hv : isSelfClosingTag n
      · simp only [hv, if_true]
        show (onclosetag false n st).outputs = st.outputs
        unfold onclosetag
        dsimp only
        have hc : ¬ ((!isSelfClosingTag n) = true) := by simp [hv]
        rw [if_neg hc, if_pos (by simp)]
        unfold flush
        rw [hbuf]
        simp
      · have hv2 : isSelfClosingTag n = false := by simpa using hv
        simp only [hv2, Bool.false_eq_true, if_false]
        show (onclosetag false n st).outputs = st.outputs ++ ["</" ++ n ++ ">"]
        unfold onclosetag
        dsimp only
        have hc : (!isSelfClosingTag n) = true := by simp [hv2]
        rw [if_pos hc, if_pos (by simp)]
        unfold flush
        rw [hbuf]
        simp [hnts_single]
        rfl

/-- C2: in buffered mode an event leaving the depth counter nonzero enqueues
nothing (and an Open never enqueues), while a Text event arriving at depth 0
and a Close event returning the depth to 0 each enqueue exactly one chunk. -/
theorem buffered_flush_timing (evs : List Ev) (ev : Ev) :
    ((step true (processEvents true evs initState) ev).unclosed ≠ 0 →
      (step true (processEvents true evs initState) ev).outputs =
        (processEvents true evs initState).outputs) ∧
    (∀ n a, ev = Ev.open_ n a →
      (step true (processEvents true evs initState) ev).outputs =
        (processEvents true evs initState).outputs) ∧
    (∀ t, ev = Ev.text t → (processEvents true evs initState).unclosed = 0 →
      ∃ c, (step true (processEvents true evs initState) ev).outputs =
        (processEvents true evs initState).outputs ++ [c]) ∧
    (∀ n, ev = Ev.close n → (step true (processEvents true evs initState) ev).unclosed = 0 →
      ∃ c, (step true (processEvents true evs initState) ev).outputs =
        (processEvents true evs initState).outputs ++ [c]) := by
  set st := processEvents true evs initState with hst
  refine ⟨?_, ?_, ?_, ?_⟩
  · intro hne
    cases ev with
    | open_ n a =>
        show (onopentag true n a st).outputs = st.outputs
        unfold onopentag
        dsimp only
        rw [if_neg (by simp)]
    | text t =>
        have hu : (ontext true t st).unclosed = st.unclosed := unclosed_ontext true t st
        have hne2 : st.unclosed ≠ 0 := fun hz => hne (by rw [show (step true st (Ev.text t)).unclosed = (ontext true t st).unclosed from rfl, hu, hz])
        show (ontext true t st).outputs = st.outputs
        unfold ontext
        dsimp only
        rw [if_neg (by simp [hne2])]
    | close n =>
        have hu : (onclosetag true n st).unclosed = st.unclosed - 1 :=
          unclosed_onclosetag true n st
        have hne2 : st.unclosed - 1 ≠ 0 := fun hz => hne (by rw [show (step true st (Ev.close n)).unclosed = (onclosetag true n st).unclosed from rfl, hu, hz])
        show (onclosetag true n st).outputs = st.outputs
        unfold onclosetag
        dsimp only
        by_cases hv : isSelfClosingTag n
        · have hc : ¬ ((!isSelfClosingTag n) = true) := by simp [hv]
          rw [if_neg hc, if_neg (by simp [hne2])]
        · have hc : (!isSelfClosingTag n) = true := by
            have hv2 : isSelfClosingTag n = false := by simpa using hv
            simp [hv2]
          rw [if_pos hc, if_neg (by simp [hne2])]
  · intro n a hev
    subst hev
    show (onopentag true n a st).outputs = st.outputs
    unfold onopentag
    dsimp only
    rw [if_neg (by simp)]
  · intro t hev hz
    subst hev
    show ∃ c, (ontext true t st).outputs = st.outputs ++ [c]
    unfold ontext
    dsimp only
    rw [if_pos (by simp [hz])]
    unfold flush
    rw [if_pos (by simp)]
    exact ⟨_, rfl⟩
  · intro n hev hz
    subst hev
    have hz2 : st.unclosed - 1 = 0 := by
      rw [show (step true st (Ev.close n)).unclosed = (onclosetag true n st).unclosed from rfl,
        unclosed_onclosetag] at hz
      exact hz
    have hbuf : st.buffer ≠ [] := by
      rw [hst]
      apply processEvents_true_inv evs initState (fun hgt => absurd hgt (by decide))
      rw [← hst]
      omega
    show ∃ c, (onclosetag true n st).outputs = st.outputs ++ [c]
    unfold onclosetag
    dsimp only
    by_cases hv : isSelfClosingTag n
    · have hc : ¬ ((!isSelfClosingTag n) = true) := by simp [hv]
      rw [if_neg hc, if_pos (by simp [hz2])]
      unfold flush
      rw [if_pos (by simpa [List.length_pos] using hbuf)]
      exact ⟨_, rfl⟩
    · have hc : (!isSelfClosingTag n) = true := by
        have hv2 : isSelfClosingTag n = false := by simpa using hv
        simp [hv2]
      rw [if_pos hc, if_pos (by simp [hz2])]
      unfold flush
      rw [if_pos (by simp)]
      exact ⟨_, rfl⟩

/-- C2 witness: buffering one open div, the close div returning the depth
to 0 enqueues exactly one chunk. -/
theorem buffered_flush_timing_witness :
    Ev.close "div" = Ev.close "div" ∧
    (step true (processEvents true [Ev.open_ "div" []] initState) (Ev.close "div")).unclosed
      = 0 ∧
    (∃ c, (step true (processEvents true [Ev.open_ "div" []] initState)
        (Ev.close "div")).outputs =
      (processEvents true [Ev.open_ "div" []] initState).outputs ++ [c]) :=
  ⟨rfl, by decide,
    (buffered_flush_timing [Ev.open_ "div" []] (Ev.close "div")).2.2.2 "div" rfl (by decide)⟩

/-- C1: for any tokenizer-compliant event stream that leaves the open-tag
stack `stk` (most recently opened first), the end-of-input handling emits one
synthesized closing tag per still-open tag, all non-void, in stack order —
the exact reverse of the order of the corresponding opens (`stk.reverse` is a
subsequence of the opens in document order) — and it brings the depth counter
to 0, leaving the buffer empty. -/
theorem end_of_input_synthesized_closes (b : Bool) (evs : List Ev) (stk : List String)
    (h : wfRun evs (none, []) = some (none, stk)) :
    (∀ n ∈ stk, isSelfClosingTag n = false) ∧
    totalOut (endInput b stk (processEvents b evs initState)) =
      totalOut (processEvents b evs initState) ++
        String.join (stk.map fun n => "</" ++ n ++ ">") ∧
    stk.reverse.Sublist (opensOf evs) ∧
    (endInput b stk (processEvents b evs initState)).unclosed = 0 ∧
    (endInput b stk (processEvents b evs initState)).buffer = [] := by
  have hnv : ∀ n ∈ stk, isSelfClosingTag n = false :=
    wfRun_stack_nonvoid h (fun n hn => absurd hn (List.not_mem_nil n))
  have hsub : stk.reverse.Sublist (opensOf evs) := by
    have hs := wfRun_sublist h
    simpa using hs
  have hinv := wfRun_engine_inv b initState h (by simp [initState, tsCount]) (fun _ => rfl)
  have hcount : (processEvents b evs initState).unclosed = (stk.length : Int) := by
    have h1 := hinv.1
    simpa [tsCount] using h1
  have hfin := endInput_final b hcount hinv.2
  exact ⟨hnv, totalOut_endInput b stk _ hnv, hsub, hfin.1, hfin.2⟩

/-- C1 witness: div and p left open with some text; the end-of-input closes
p then div, in reverse order of opening, leaving depth 0 and an empty
buffer. -/
theorem end_of_input_synthesized_closes_witness :
    wfRun [Ev.open_ "div" [], Ev.open_ "p" [], Ev.text "x"] (none, []) =
      some (none, ["p", "div"]) ∧
    ((∀ n ∈ ["p", "div"], isSelfClosingTag n = false) ∧
     totalOut (endInput true ["p", "div"]
        (processEvents true [Ev.open_ "div" [], Ev.open_ "p" [], Ev.text "x"] initState)) =
       totalOut (processEvents true [Ev.open_ "div" [], Ev.open_ "p" [], Ev.text "x"]
          initState) ++
         String.join (["p", "div"].map fun n => "</" ++ n ++ ">") ∧
     (["p", "div"].reverse).Sublist (opensOf [Ev.open_ "div" [], Ev.open_ "p" [],
        Ev.text "x"]) ∧
     (endInput true ["p", "div"]
        (processEvents true [Ev.open_ "div" [], Ev.open_ "p" [], Ev.text "x"]
          initState)).unclosed = 0 ∧
     (endInput true ["p", "div"]
        (processEvents true [Ev.open_ "div" [], Ev.open_ "p" [], Ev.text "x"]
          initState)).buffer = []) :=
  ⟨by decide,
   end_of_input_synthesized_closes true [Ev.open_ "div" [], Ev.open_ "p" [], Ev.text "x"]
     ["p", "div"] (by decide)⟩

theorem countP_map_close (stk : List String) :
    (stk.map HtmlNode.close).countP isCloseNode = stk.length := by
  induction stk with
  | nil => rfl
  | cons n stk ih => simp [List.countP_cons, isCloseNode, ih]

theorem countP_map_close_open (stk : List String) :
    (stk.map HtmlNode.close).countP isNonVoidOpenNode = 0 := by
  induction stk with
  | nil => rfl
  | cons n stk ih => simp [List.countP_cons, isNonVoidOpenNode, ih]

/-- C9: over a full run to end-of-input on a tokenizer-compliant stream, the
close nodes emitted downstream (tokenizer-driven plus the synthesized ones,
all non-void) are exactly as many as the non-void open nodes, and the
concatenation of all enqueued chunks is the rendering of exactly those
nodes. -/
theorem depth_conservation (b : Bool) (evs : List Ev) (stk : List String)
    (h : wfRun evs (none, []) = some (none, stk)) :
    (appendedNodes evs ++ stk.map HtmlNode.close).countP isCloseNode =
      (appendedNodes evs ++ stk.map HtmlNode.close).countP isNonVoidOpenNode ∧
    String.join (endInput b stk (processEvents b evs initState)).outputs =
      htmlNodesToString (appendedNodes evs ++ stk.map HtmlNode.close) := by
  have hnc := wfRun_node_count h (fun v hv => by cases hv)
  have hnv : ∀ n ∈ stk, isSelfClosingTag n = false :=
    wfRun_stack_nonvoid h (fun n hn => absurd hn (List.not_mem_nil n))
  constructor
  · rw [List.countP_append, List.countP_append, countP_map_close, countP_map_close_open]
    simp only [List.length_nil] at hnc
    omega
  · have hinv := wfRun_engine_inv b initState h (by simp [initState, tsCount]) (fun _ => rfl)
    have hcount : (processEvents b evs initState).unclosed = (stk.length : Int) := by
      have h1 := hinv.1
      simpa [tsCount] using h1
    have hfin := endInput_final b hcount hinv.2
    have hjoin : totalOut (endInput b stk (processEvents b evs initState)) =
        String.join (endInput b stk (processEvents b evs initState)).outputs := by
      rw [totalOut, hfin.2, hnts_nil, String.append_empty]
    rw [← hjoin, totalOut_endInput b stk _ hnv, totalOut_processEvents, totalOut_initState,
      String.empty_append, hnts_append]
    congr 1
    simp [htmlNodesToString, List.map_map, Function.comp_def, renderNode]

/-- C9 witness: one void input tag, an unclosed div, and text; opens of
non-void tags (one) match the close nodes emitted (one, synthesized). -/
theorem depth_conservation_witness :
    wfRun [Ev.open_ "div" [], Ev.open_ "br" [], Ev.close "br", Ev.text "x"] (none, []) =
      some (none, ["div"]) ∧
    ((appendedNodes [Ev.open_ "div" [], Ev.open_ "br" [], Ev.close "br", Ev.text "x"] ++
        ["div"].map HtmlNode.close).countP isCloseNode =
      (appendedNodes [Ev.open_ "div" [], Ev.open_ "br" [], Ev.close "br", Ev.text "x"] ++
        ["div"].map HtmlNode.close).countP isNonVoidOpenNode ∧
     String.join (endInput false ["div"]
        (processEvents false [Ev.open_ "div" [], Ev.open_ "br" [], Ev.close "br",
          Ev.text "x"] initState)).outputs =
       htmlNodesToString
         (appendedNodes [Ev.open_ "div" [], Ev.open_ "br" [], Ev.close "br", Ev.text "x"] ++
           ["div"].map HtmlNode.close)) :=
  ⟨by decide,
   depth_conservation false [Ev.open_ "div" [], Ev.open_ "br" [], Ev.close "br", Ev.text "x"]
     ["div"] (by decide)⟩

theorem flush_good {st : EngineState}
    (h1 : noVoidClose st.buffer = true)
    (h2 : ∀ c ∈ st.outputs, ∃ l, noVoidClose l = true ∧ c = htmlNodesToString l) :
    noVoidClose (flush st).buffer = true ∧
      ∀ c ∈ (flush st).outputs, ∃ l, noVoidClose l = true ∧ c = htmlNodesToString l := by
  unfold flush
  split
  · refine ⟨rfl, ?_⟩
    intro c hc
    rcases List.mem_append.mp hc with hc2 | hc2
    · exact h2 c hc2
    · rcases List.mem_singleton.mp hc2 with rfl
      exact ⟨st.buffer, h1, rfl⟩
  · exact ⟨h1, h2⟩

theorem noVoidClose_append_one {l : List HtmlNode} {nd : HtmlNode}
    (h1 : noVoidClose l = true)
    (h2 : (match nd with
           | HtmlNode.close n => !isSelfClosingTag n
           | _ => true) = true) :
    noVoidClose (l ++ [nd]) = true := by
  simp only [noVoidClose, List.all_append, Bool.and_eq_true] at *
  exact ⟨h1, by simpa [List.all_cons] using h2⟩

theorem step_good (b : Bool) (st : EngineState) (e : Ev)
    (h1 : noVoidClose st.buffer = true)
    (h2 : ∀ c ∈ st.outputs, ∃ l, noVoidClose l = true ∧ c = htmlNodesToString l) :
    noVoidClose (step b st e).buffer = true ∧
      ∀ c ∈ (step b st e).outputs, ∃ l, noVoidClose l = true ∧ c = htmlNodesToString l := by
  cases e with
  | open_ n a =>
      have hg : noVoidClose (st.buffer ++ [HtmlNode.open_ n a]) = true :=
        noVoidClose_append_one h1 rfl
      show noVoidClose (onopentag b n a st).buffer = true ∧
        ∀ c ∈ (onopentag b n a st).outputs, ∃ l, noVoidClose l = true ∧ c = htmlNodesToString l
      unfold onopentag
      dsimp only
      split
      · apply flush_good
        · exact hg
        · exact h2
      · exact ⟨hg, h2⟩
  | text t =>
      have hg : noVoidClose (st.buffer ++
          [HtmlNode.text ((t.replace "<" "&lt;").replace ">" "&gt;")]) = true :=
        noVoidClose_append_one h1 rfl
      show noVoidClose (ontext b t st).buffer = true ∧
        ∀ c ∈ (ontext b t st).outputs, ∃ l, noVoidClose l = true ∧ c = htmlNodesToString l
      unfold ontext
      dsimp only
      split
      · apply flush_good
        · exact hg
        · exact h2
      · exact ⟨hg, h2⟩
  | close n =>
      show noVoidClose (onclosetag b n st).buffer = true ∧
        ∀ c ∈ (onclosetag b n st).outputs, ∃ l, noVoidClose l = true ∧ c = htmlNodesToString l
      unfold onclosetag
      dsimp only
      by_cases hv : isSelfClosingTag n
      · have hc : ¬ ((!isSelfClosingTag n) = true) := by simp [hv]
        rw [if_neg hc]
        split
        · apply flush_good
          · exact h1
          · exact h2
        · exact ⟨h1, h2⟩
      · have hv2 : isSelfClosingTag n = false := by simpa using hv
        have hc : (!isSelfClosingTag n) = true := by simp [hv2]
        have hg : noVoidClose (st.buffer ++ [HtmlNode.close n]) = true :=
          noVoidClose_append_one h1 (by simp [hv2])
        rw [if_pos hc]
        split
        · apply flush_good
          · exact hg
          · exact h2
        · exact ⟨hg, h2⟩

theorem processEvents_good (b : Bool) (evs : List Ev) (st : EngineState)
    (h1 : noVoidClose st.buffer = true)
    (h2 : ∀ c ∈ st.outputs, ∃ l, noVoidClose l = true ∧ c = htmlNodesToString l) :
    noVoidClose (processEvents b evs st).buffer = true ∧
      ∀ c ∈ (processEvents b evs st).outputs,
        ∃ l, noVoidClose l = true ∧ c = htmlNodesToString l := by
  induction evs generalizing st with
  | nil => exact ⟨h1, h2⟩
  | cons e evs ih =>
      rw [processEvents_cons]
      have hs := step_good b st e h1 h2
      exact ih (step b st e) hs.1 hs.2

theorem endInput_good (b : Bool) (stk : List String) (st : EngineState)
    (h1 : noVoidClose st.buffer = true)
    (h2 : ∀ c ∈ st.outputs, ∃ l, noVoidClose l = true ∧ c = htmlNodesToString l) :
    noVoidClose (endInput b stk st).buffer = true ∧
      ∀ c ∈ (endInput b stk st).outputs,
        ∃ l, noVoidClose l = true ∧ c = htmlNodesToString l := by
  induction stk generalizing st with
  | nil => exact ⟨h1, h2⟩
  | cons n stk ih =>
      rw [endInput_cons]
      have hs := step_good b st (Ev.close n) h1 h2
      exact ih (onclosetag b n st) hs.1 hs.2

/-- C6: after any event stream and any sequence of synthesized end-of-input
closes, the pending buffer holds no Close node for a void tag, and every
chunk ever enqueued is the rendering of a node list with no void Close —
so a closing tag for a void name is never emitted. -/
theorem no_void_close_invariant (b : Bool) (evs : List Ev) (stk : List String) :
    noVoidClose (endInput b stk (processEvents b evs initState)).buffer = true ∧
      ∀ c ∈ (endInput b stk (processEvents b evs initState)).outputs,
        ∃ l, noVoidClose l = true ∧ c = htmlNodesToString l := by
  have hbase : noVoidClose initState.buffer = true ∧
      ∀ c ∈ initState.outputs, ∃ l, noVoidClose l = true ∧ c = htmlNodesToString l :=
    ⟨rfl, fun c hc => absurd hc (List.not_mem_nil c)⟩
  have hrun := processEvents_good b evs initState hbase.1 hbase.2
  exact endInput_good b stk (processEvents b evs initState) hrun.1 hrun.2

/-- C6 witness: a concrete run with a void tag and a real close, for the
engine in unbuffered mode with one synthesized close at end of input. -/
theorem no_void_close_invariant_witness :
    noVoidClose (endInput false ["div"]
      (processEvents false [Ev.open_ "div" [], Ev.open_ "br" [], Ev.close "br"]
        initState)).buffer = true ∧
      ∀ c ∈ (endInput false ["div"]
          (processEvents false [Ev.open_ "div" [], Ev.open_ "br" [], Ev.close "br"]
            initState)).outputs,
        ∃ l, noVoidClose l = true ∧ c = htmlNodesToString l :=
  no_void_close_invariant false [Ev.open_ "div" [], Ev.open_ "br" [], Ev.close "br"] ["div"]

/-- C4: concrete run of the one-shot API (over the spec-modelled tokenizer)
refuting idempotence: the input needs no synthesized closes, its balanced
output S has an attribute value whose backslash was doubled by the JSON
escaping, and re-running the API on S doubles the backslashes again, so the
second run does not return S unchanged. -/
theorem balance_not_idempotent_backslash :
    (tokenizeCore "<i t=a\\b></i>").2 = [] ∧
    balanceHtmlString "<i t=a\\b></i>" = "<i t=\"a\\\\b\"></i>" ∧
    (tokenizeCore "<i t=\"a\\\\b\"></i>").2 = [] ∧
    balanceHtmlString "<i t=\"a\\\\b\"></i>" = "<i t=\"a\\\\\\\\b\"></i>" := by
  refine ⟨by decide, by decide, by decide, by decide⟩

end HtmlBalancer
